import Mathlib

/-!
Shallow embedding of the document-proofreader core: the token-budgeted
chunker (token_manager.py), the per-chunk rewrite adapter and rejoin
(proofreader.py), and the review/approval session state (app.py).
Text is modelled as `List Char`; the external tiktoken encoding is a
parameter `enc : List Char → Nat`; the external chat call is an oracle
value `CallResult`.
-/

namespace DocProofreader

/-- Whitespace test backing Python str.strip, str.split and the regex
whitespace class in the model. -/
def isWS (c : Char) : Bool := c.isWhitespace

/-- Accumulator scanner behind `words` (Python str.split with no
arguments); `cur` holds the current word reversed. -/
def wordsAux : List Char → List Char → List (List Char)
  | [], cur => if cur = [] then [] else [cur.reverse]
  | c :: cs, cur =>
    if isWS c then
      if cur = [] then wordsAux cs [] else cur.reverse :: wordsAux cs []
    else wordsAux cs (c :: cur)

/-- Python str.split with no arguments: the maximal runs of
non-whitespace characters, in order. -/
def words (s : List Char) : List (List Char) := wordsAux s []

/-- Python str.strip: drop leading and trailing whitespace. -/
def strip (s : List Char) : List Char :=
  (((s.dropWhile isWS).reverse).dropWhile isWS).reverse

/-- The sentence-final punctuation class `[.!?]` of
TokenManager._split_into_sentences. -/
def isSentEnd (c : Char) : Bool := c = '.' || c = '!' || c = '?'

/-- Whether a list starts with a whitespace character. -/
def headIsWS : List Char → Bool
  | [] => false
  | c :: _ => isWS c

/-- Scanner behind re.split on a whitespace run preceded by `[.!?]`
(TokenManager._split_into_sentences).  `skip` is true while consuming
the whitespace run of a separator just matched; `acc` holds the
current piece reversed (and is `[]` while skipping). -/
def sentAux : List Char → Bool → List Char → List (List Char)
  | [], skip, acc => if skip then [[]] else [acc.reverse]
  | c :: cs, skip, acc =>
    if skip && isWS c then sentAux cs true []
    else if isSentEnd c && headIsWS cs then
      (acc.reverse ++ [c]) :: sentAux cs true []
    else sentAux cs false (c :: acc)

/-- TokenManager._split_into_sentences: regex split after sentence
punctuation, each piece stripped, blank pieces dropped. -/
def split_into_sentences (text : List Char) : List (List Char) :=
  ((sentAux text false []).map strip).filter (fun s => s ≠ [])

/-- TokenManager.count_tokens: 0 for the empty (falsy) string, else the
length of the external encoding of the text. -/
def count_tokens (enc : List Char → Nat) (text : List Char) : Nat :=
  if text = [] then 0 else enc text

/-- The Python idiom `cur + " " + x if cur else x` used when growing the
current chunk. -/
def appWord (cur x : List Char) : List Char :=
  if cur = [] then x else cur ++ ' ' :: x

/-- One iteration of the word loop of TokenManager._split_long_sentence.
State: (chunks so far, current_chunk). -/
def slsStep (enc : List Char → Nat) (maxT : Nat)
    (st : List (List Char) × List Char) (word : List Char) :
    List (List Char) × List Char :=
  let test_chunk := appWord st.2 word
  if maxT < count_tokens enc test_chunk then
    if st.2 ≠ [] then (st.1 ++ [st.2], word) else (st.1 ++ [word], [])
  else (st.1, test_chunk)

/-- TokenManager._split_long_sentence: greedy accumulation of the
sentence's words, flushing when the budget would be exceeded. -/
def split_long_sentence (enc : List Char → Nat) (sentence : List Char) (maxT : Nat) :
    List (List Char) :=
  let st := (words sentence).foldl (slsStep enc maxT) ([], [])
  if st.2 ≠ [] then st.1 ++ [st.2] else st.1

/-- One iteration of the sentence loop of
TokenManager.split_text_by_tokens. State: (chunks so far, current_chunk). -/
def stbtStep (enc : List Char → Nat) (maxT : Nat)
    (st : List (List Char) × List Char) (sentence : List Char) :
    List (List Char) × List Char :=
  let sentence_tokens := count_tokens enc sentence
  let current_tokens := count_tokens enc st.2
  if maxT < sentence_tokens then
    ((if st.2 ≠ [] then st.1 ++ [strip st.2] else st.1) ++
        split_long_sentence enc sentence maxT,
      [])
  else if maxT < current_tokens + sentence_tokens then
    (if st.2 ≠ [] then st.1 ++ [strip st.2] else st.1, sentence)
  else (st.1, appWord st.2 sentence)

/-- TokenManager.split_text_by_tokens: texts within the budget are
returned as the singleton `[text]`; longer texts are split into
sentences, accumulated greedily, with an inner word-level split for
oversized sentences, and blank chunks are filtered at the end. -/
def split_text_by_tokens (enc : List Char → Nat) (text : List Char) (maxT : Nat) :
    List (List Char) :=
  if count_tokens enc text ≤ maxT then [text]
  else
    let st := (split_into_sentences text).foldl (stbtStep enc maxT) ([], [])
    let chunks := if st.2 ≠ [] then st.1 ++ [strip st.2] else st.1
    chunks.filter (fun chunk => strip chunk ≠ [])

/-- Outcome of one external chat-completion call:
`ok content` is a reply whose message content may be null (None),
`err` is any raised exception. -/
inductive CallResult where
  | ok : Option (List Char) → CallResult
  | err : CallResult
deriving DecidableEq

/-- Python truthiness of an optional string. -/
def pyTruthy : Option (List Char) → Bool
  | none => false
  | some s => s ≠ []

/-- Proofreader._proofread_single_chunk: returns the stripped reply
content, falling back to the input text when the call raises, the
content is null or empty, or the content is blank after stripping. -/
def proofread_single_chunk (r : CallResult) (text : List Char) : List Char :=
  match r with
  | CallResult.err => text
  | CallResult.ok content =>
    let corrected_text := if pyTruthy content then Option.map strip content else content
    match corrected_text with
    | none => text
    | some c => if c = [] then text else c

/-- The startswith tuple of Proofreader._rejoin_chunks: the (mojibake)
bullet `â€¢`, a dash, or an enumerated prefix `1.` .. `9.`. -/
def isListMarker (chunk : List Char) : Bool :=
  List.isPrefixOf ['â', '€', '¢'] chunk ||
  List.isPrefixOf ['-'] chunk ||
  List.isPrefixOf ['1', '.'] chunk ||
  List.isPrefixOf ['2', '.'] chunk ||
  List.isPrefixOf ['3', '.'] chunk ||
  List.isPrefixOf ['4', '.'] chunk ||
  List.isPrefixOf ['5', '.'] chunk ||
  List.isPrefixOf ['6', '.'] chunk ||
  List.isPrefixOf ['7', '.'] chunk ||
  List.isPrefixOf ['8', '.'] chunk ||
  List.isPrefixOf ['9', '.'] chunk

/-- Python `result.endswith('.') or result.endswith('!') or
result.endswith('?')` in Proofreader._rejoin_chunks. -/
def endsWithSentencePunct (result : List Char) : Bool :=
  match result.getLast? with
  | some c => c = '.' || c = '!' || c = '?'
  | none => false

/-- One iteration of the rejoin loop for a non-first chunk: paragraph
break before a list marker, otherwise a single space (the sentence-punct
test selects between two identical single-space branches in the source). -/
def rejoinStep (result chunk : List Char) : List Char :=
  if isListMarker chunk then result ++ '\n' :: '\n' :: chunk
  else if endsWithSentencePunct result then result ++ ' ' :: chunk
  else result ++ ' ' :: chunk

/-- Proofreader._rejoin_chunks: the first chunk seeds the result, later
chunks are appended by `rejoinStep`. -/
def rejoin_chunks (chunks : List (List Char)) : List Char :=
  match chunks with
  | [] => []
  | first :: rest => rest.foldl rejoinStep first

/-- The per-chunk call loop of Proofreader.proofread_text: the i-th chunk
consumes the i-th external call. -/
def proofread_chunks (calls : Nat → CallResult) :
    Nat → List (List Char) → List (List Char)
  | _, [] => []
  | i, c :: cs =>
    proofread_single_chunk (calls i) c :: proofread_chunks calls (i + 1) cs

/-- Proofreader.proofread_text: blank text is returned unchanged; text
within the input budget goes through one call; longer text is chunked,
each chunk proofread in order, and the results rejoined. -/
def proofread_text (enc : List Char → Nat) (calls : Nat → CallResult)
    (maxInput : Nat) (text : List Char) : List Char :=
  if strip text = [] then text
  else if count_tokens enc text ≤ maxInput then
    proofread_single_chunk (calls 0) text
  else
    rejoin_chunks (proofread_chunks calls 0 (split_text_by_tokens enc text maxInput))

/-- The four values of st.session_state.current_step in app.py. -/
inductive Step where
  | upload
  | processing
  | review
  | download
deriving DecidableEq

/-- The per-session state of app.py that the review state machine
touches; the two index-keyed dicts are modelled as maps to Option. -/
structure SessionState where
  current_step : Step
  original_paragraphs : List (List Char)
  corrected_paragraphs : List (List Char)
  changes_approved : Nat → Option Bool
  edited_paragraphs : Nat → Option (List Char)
  processing_complete : Bool

/-- The session defaults installed at the top of app.py when a key is
absent. -/
def initSession : SessionState :=
  { current_step := Step.upload
    original_paragraphs := []
    corrected_paragraphs := []
    changes_approved := fun _ => none
    edited_paragraphs := fun _ => none
    processing_complete := false }

/-- The per-paragraph body of the processing loop: blank paragraphs are
kept as-is, the rest go through the proofreader, whose outcome (result,
or the original on an exception) is the oracle `pf`. -/
def processParagraph (pf : List Char → List Char) (p : List Char) : List Char :=
  if strip p ≠ [] then pf p else p

/-- The processing step of app.py: recompute corrected_paragraphs from
the originals, mark processing complete, and default changes_approved[i]
to True exactly for the indices where corrected differs from original
(other entries of the dict are left as they were). -/
def runProcessing (pf : List Char → List Char) (s : SessionState) : SessionState :=
  let corrected := s.original_paragraphs.map (processParagraph pf)
  { s with
    corrected_paragraphs := corrected
    processing_complete := true
    changes_approved := fun i =>
      match s.original_paragraphs.get? i, corrected.get? i with
      | some o, some c => if o ≠ c then some true else s.changes_approved i
      | _, _ => s.changes_approved i }

/-- The Reprocess Document button: clear only processing_complete and
move back to the processing step. -/
def reprocessClick (s : SessionState) : SessionState :=
  { s with processing_complete := false, current_step := Step.processing }

/-- A reprocess round trip: the Reprocess click followed by the
processing step run. -/
def reprocessRun (pf : List Char → List Char) (s : SessionState) : SessionState :=
  runProcessing pf (reprocessClick s)

/-- The Back to Upload / Process Another Document buttons: delete every
per-document session key (so the defaults reappear) and return to the
upload step. -/
def resetToUpload (_s : SessionState) : SessionState := initSession

/-- The final-paragraph loop of the download step of app.py, with the
running index made explicit (enumerate over zip). -/
def create_final_paragraphs_from (approved : Nat → Option Bool)
    (edited : Nat → Option (List Char)) :
    Nat → List (List Char) → List (List Char) → List (List Char)
  | _, [], _ => []
  | _, _ :: _, [] => []
  | i, o :: os, c :: cs =>
    (if (approved i).getD false then (edited i).getD c else o) ::
      create_final_paragraphs_from approved edited (i + 1) os cs

/-- The download step of app.py: per paragraph, the edited text if
approved and present, else the corrected text if approved, else the
original. -/
def create_final_paragraphs (approved : Nat → Option Bool)
    (edited : Nat → Option (List Char))
    (origs correcteds : List (List Char)) : List (List Char) :=
  create_final_paragraphs_from approved edited 0 origs correcteds

/-! ### Concrete instantiations used by witnesses and counterexamples -/

/-- A stand-in instantiation of the external tiktoken encoding: one
token per character.  It shares with the shipped cl100k_base encoding
the losslessness property that every non-empty string encodes to at
least one token (and in particular a whitespace-only string to a
positive count). -/
def charCountEnc : List Char → Nat := List.length

/-- A whitespace-insensitive stand-in encoding: one token per
whitespace-delimited word. -/
def wordCountEnc (s : List Char) : Nat := (words s).length

/-- Concrete text used by witnesses: the three words ab cd ef. -/
def textW : List Char := ['a', 'b', ' ', 'c', 'd', ' ', 'e', 'f']

/-- Concrete text used by the C5 counterexample: one short word padded
with trailing whitespace that inflates the token count. -/
def textHi : List Char := ['H', 'i', ' ', ' ', ' ', ' ', ' ', ' ']

/-- Concrete text used by the C6 counterexample: a word padded with
surrounding whitespace. -/
def textPad : List Char := [' ', 'h', 'i', ' ']

/-- Concrete per-chunk call outcomes for the C7 witness: the second
chunk's call raises, the others reply with content Z. -/
def callsW : Nat → CallResult :=
  fun i => if i = 1 then CallResult.err else CallResult.ok (some ['Z'])

/-- The identity paragraph rewrite oracle. -/
def pfId : List Char → List Char := fun p => p

/-- A rewrite oracle that changes every paragraph. -/
def pfX : List Char → List Char := fun p => 'x' :: p

/-- A concrete session sitting in the review step with one previously
changed paragraph that carries a manual edit and a revoked approval. -/
def s0 : SessionState :=
  { current_step := Step.review
    original_paragraphs := [['a'], ['b']]
    corrected_paragraphs := [['A'], ['b']]
    changes_approved := fun i => if i = 0 then some false else none
    edited_paragraphs := fun i => if i = 0 then some ['x'] else none
    processing_complete := true }

/-! ### Lemmas about words (Python str.split) and strip -/

theorem wordsAux_append_ws {c : Char} (hc : isWS c = true) (a b : List Char) :
    ∀ cur, wordsAux (a ++ c :: b) cur = wordsAux a cur ++ wordsAux b [] := by
  induction a with
  | nil =>
    intro cur
    by_cases h : cur = [] <;> simp [wordsAux, hc, h]
  | cons x a ih =>
    intro cur
    by_cases hx : isWS x
    · by_cases h : cur = [] <;> simp [wordsAux, hx, h, ih]
    · simp [wordsAux, hx, ih]

theorem words_cons_ws {c : Char} (hc : isWS c = true) (s : List Char) :
    words (c :: s) = words s := by
  simp [words, wordsAux, hc]

theorem wordsAux_all_ws : ∀ s : List Char, (∀ c ∈ s, isWS c = true) → wordsAux s [] = [] := by
  intro s
  induction s with
  | nil => intro _; rfl
  | cons c cs ih =>
    intro h
    have hc : isWS c = true := h c (by simp)
    simpa [wordsAux, hc] using ih (fun x hx => h x (by simp [hx]))

theorem words_append_all_ws (x w : List Char) (h : ∀ c ∈ w, isWS c = true) :
    words (x ++ w) = words x := by
  cases w with
  | nil => simp
  | cons c w =>
    have hc : isWS c = true := h c (by simp)
    have hw : ∀ d ∈ w, isWS d = true := fun d hd => h d (by simp [hd])
    show wordsAux (x ++ c :: w) [] = words x
    rw [wordsAux_append_ws hc x w [], wordsAux_all_ws w hw]
    simp [words]

theorem words_dropWhile (s : List Char) : words (s.dropWhile isWS) = words s := by
  induction s with
  | nil => rfl
  | cons c cs ih =>
    by_cases hc : isWS c
    · simpa [List.dropWhile_cons, hc, words_cons_ws hc] using ih
    · simp [List.dropWhile_cons, hc]

theorem mem_takeWhile_ws : ∀ s : List Char, ∀ c ∈ s.takeWhile isWS, isWS c = true := by
  intro s
  induction s with
  | nil => simp
  | cons x xs ih =>
    intro c hc
    by_cases hx : isWS x
    · rw [List.takeWhile_cons, if_pos hx] at hc
      rcases List.mem_cons.mp hc with rfl | h
      · exact hx
      · exact ih c h
    · rw [List.takeWhile_cons, if_neg hx] at hc
      exact absurd hc (List.not_mem_nil c)

theorem strip_decomp (s : List Char) :
    s.dropWhile isWS =
      strip s ++ ((s.dropWhile isWS).reverse.takeWhile isWS).reverse := by
  have h : ((s.dropWhile isWS).reverse.takeWhile isWS ++
      (s.dropWhile isWS).reverse.dropWhile isWS).reverse
      = (s.dropWhile isWS).reverse.reverse := by
    rw [List.takeWhile_append_dropWhile]
  rw [List.reverse_reverse, List.reverse_append] at h
  exact h.symm

theorem words_strip (s : List Char) : words (strip s) = words s := by
  have h := strip_decomp s
  have htail : ∀ c ∈ ((s.dropWhile isWS).reverse.takeWhile isWS).reverse, isWS c = true := by
    intro c hc
    exact mem_takeWhile_ws _ c (List.mem_reverse.mp hc)
  calc words (strip s)
      = words (strip s ++ ((s.dropWhile isWS).reverse.takeWhile isWS).reverse) :=
        (words_append_all_ws _ _ htail).symm
    _ = words (s.dropWhile isWS) := by rw [← h]
    _ = words s := words_dropWhile s

theorem wordsAux_ne_nil : ∀ s cur : List Char, cur ≠ [] → wordsAux s cur ≠ [] := by
  intro s
  induction s with
  | nil => intro cur h; simp [wordsAux, h]
  | cons c cs ih =>
    intro cur h
    by_cases hc : isWS c
    · simp [wordsAux, hc, h]
    · simpa [wordsAux, hc] using ih (c :: cur) (by simp)

theorem all_ws_of_words_nil : ∀ s : List Char, words s = [] → ∀ c ∈ s, isWS c = true := by
  intro s
  induction s with
  | nil => simp
  | cons c cs ih =>
    intro h x hx
    by_cases hc : isWS c
    · have hcs : words cs = [] := by simpa [words, wordsAux, hc] using h
      rcases List.mem_cons.mp hx with rfl | hmem
      · exact hc
      · exact ih hcs x hmem
    · exact absurd (by simpa [words, wordsAux, hc] using h)
        (wordsAux_ne_nil cs [c] (by simp))

theorem dropWhile_eq_nil_all_ws (s : List Char) (h : ∀ c ∈ s, isWS c = true) :
    s.dropWhile isWS = [] := by
  induction s with
  | nil => rfl
  | cons c cs ih =>
    have hc : isWS c = true := h c (by simp)
    simpa [List.dropWhile_cons, hc] using ih (fun x hx => h x (by simp [hx]))

theorem strip_eq_nil_of_words_nil (s : List Char) (h : words s = []) : strip s = [] := by
  have := dropWhile_eq_nil_all_ws s (all_ws_of_words_nil s h)
  simp [strip, this]

theorem words_nil_of_strip_nil (s : List Char) (h : strip s = []) : words s = [] := by
  rw [← words_strip s, h]
  rfl

theorem words_appWord (a b : List Char) : words (appWord a b) = words a ++ words b := by
  by_cases h : a = []
  · simp [appWord, h, words, wordsAux]
  · show words (if a = [] then b else a ++ ' ' :: b) = words a ++ words b
    rw [if_neg h]
    exact wordsAux_append_ws (by decide) a b []

theorem join_map_of_words_self :
    ∀ l : List (List Char), (∀ x ∈ l, words x = [x]) → (l.map words).flatten = l := by
  intro l
  induction l with
  | nil => simp
  | cons x l ih =>
    intro h
    simp only [List.map_cons, List.flatten_cons, h x (by simp)]
    rw [ih (fun y hy => h y (by simp [hy]))]
    rfl

theorem wordsAux_mem_spec : ∀ s cur : List Char, (∀ c ∈ cur, isWS c = false) →
    ∀ w ∈ wordsAux s cur, w ≠ [] ∧ ∀ c ∈ w, isWS c = false := by
  intro s
  induction s with
  | nil =>
    intro cur hcur w hw
    by_cases h : cur = []
    · simp [wordsAux, h] at hw
    · simp only [wordsAux, if_neg h, List.mem_singleton] at hw
      subst hw
      refine ⟨by simpa using h, ?_⟩
      intro c hc
      exact hcur c (List.mem_reverse.mp hc)
  | cons x xs ih =>
    intro cur hcur w hw
    by_cases hx : isWS x
    · by_cases h : cur = []
      · exact ih [] (by simp) w (by simpa [wordsAux, hx, h] using hw)
      · simp only [wordsAux, hx, if_true, if_neg h, List.mem_cons] at hw
        rcases hw with rfl | hw
        · refine ⟨by simpa using h, ?_⟩
          intro c hc
          exact hcur c (List.mem_reverse.mp hc)
        · exact ih [] (by simp) w hw
    · refine ih (x :: cur) ?_ w (by simpa [wordsAux, hx] using hw)
      intro c hc
      rcases List.mem_cons.mp hc with rfl | hmem
      · simpa using hx
      · exact hcur c hmem

theorem wordsAux_no_ws : ∀ s cur : List Char, (∀ c ∈ s, isWS c = false) →
    wordsAux s cur = if cur.reverse ++ s = [] then [] else [cur.reverse ++ s] := by
  intro s
  induction s with
  | nil => intro cur h; by_cases hc : cur = [] <;> simp [wordsAux, hc]
  | cons x xs ih =>
    intro cur h
    have hx : isWS x = false := h x (by simp)
    rw [show wordsAux (x :: xs) cur = wordsAux xs (x :: cur) by simp [wordsAux, hx]]
    rw [ih (x :: cur) (fun c hc => h c (by simp [hc]))]
    simp

theorem words_of_no_ws (w : List Char) (hne : w ≠ []) (h : ∀ c ∈ w, isWS c = false) :
    words w = [w] := by
  show wordsAux w [] = [w]
  rw [wordsAux_no_ws w [] h]
  simp [hne]

theorem words_words_self (s : List Char) : ∀ w ∈ words s, words w = [w] := by
  intro w hw
  have hspec := wordsAux_mem_spec s [] (by simp) w hw
  exact words_of_no_ws w hspec.1 hspec.2

theorem join_map_words_words (s : List Char) : ((words s).map words).flatten = words s :=
  join_map_of_words_self (words s) (words_words_self s)


theorem words_nil : words ([] : List Char) = [] := rfl

theorem words_append_ws {c : Char} (hc : isWS c = true) (a b : List Char) :
    words (a ++ c :: b) = words a ++ words b :=
  wordsAux_append_ws hc a b []

/-! ### Sentence splitting preserves the word sequence -/

theorem sentAux_words : ∀ (s : List Char) (skip : Bool) (acc : List Char),
    (skip = true → acc = []) →
    ((sentAux s skip acc).map words).flatten = words (acc.reverse ++ s) := by
  intro s
  induction s with
  | nil =>
    intro skip acc hsk
    cases skip with
    | true => simp [sentAux, hsk rfl, words, wordsAux]
    | false => simp [sentAux, words]
  | cons c cs ih =>
    intro skip acc hsk
    by_cases h1 : skip && isWS c
    · have hskip : skip = true := by
        cases skip with
        | true => rfl
        | false => simp at h1
      have hacc : acc = [] := hsk hskip
      have hc : isWS c = true := by
        cases hw : isWS c with
        | true => rfl
        | false => rw [hskip, hw] at h1; simp at h1
      rw [show sentAux (c :: cs) skip acc = sentAux cs true [] by
        simp [sentAux, h1]]
      rw [ih true [] (fun _ => rfl)]
      simp [hacc, words_cons_ws hc]
    · by_cases h2 : isSentEnd c && headIsWS cs
      · rw [show sentAux (c :: cs) skip acc =
            (acc.reverse ++ [c]) :: sentAux cs true [] by simp [sentAux, h1, h2]]
        cases cs with
        | nil => simp [headIsWS] at h2
        | cons d ds =>
          have hd : isWS d = true := by
            have h3 := h2
            simp [headIsWS] at h3
            exact h3.2
          simp only [List.map_cons, List.flatten_cons]
          rw [ih true [] (fun _ => rfl)]
          simp only [List.reverse_nil, List.nil_append]
          rw [words_cons_ws hd]
          rw [show acc.reverse ++ c :: d :: ds = (acc.reverse ++ [c]) ++ d :: ds by simp]
          rw [words_append_ws hd]
      · rw [show sentAux (c :: cs) skip acc = sentAux cs false (c :: acc) by
          simp [sentAux, h1, h2]]
        rw [ih false (c :: acc) (by simp)]
        simp

theorem map_strip_filter_words (l : List (List Char)) :
    (((l.map strip).filter (fun s => s ≠ [])).map words).flatten
      = (l.map words).flatten := by
  induction l with
  | nil => rfl
  | cons p l ih =>
    rw [List.map_cons, List.filter_cons]
    by_cases h : strip p = []
    · have hp : words p = [] := by rw [← words_strip p, h]; rfl
      rw [if_neg (by simp [h])]
      rw [ih, List.map_cons, List.flatten_cons, hp, List.nil_append]
    · rw [if_pos (by simp [h])]
      rw [List.map_cons, List.flatten_cons, ih, words_strip,
        List.map_cons, List.flatten_cons]

theorem sis_words (text : List Char) :
    ((split_into_sentences text).map words).flatten = words text := by
  show (((((sentAux text false [])).map strip).filter (fun s => s ≠ [])).map words).flatten
      = words text
  rw [map_strip_filter_words]
  simpa using sentAux_words text false [] (by simp)

theorem mem_split_into_sentences_ne_nil {text s : List Char}
    (h : s ∈ split_into_sentences text) : s ≠ [] := by
  have h2 := List.of_mem_filter h
  simpa using h2

theorem mem_words_of_mem_sentence {text s w : List Char}
    (hs : s ∈ split_into_sentences text) (hw : w ∈ words s) : w ∈ words text := by
  rw [← sis_words text]
  exact List.mem_flatten.mpr ⟨words s, List.mem_map_of_mem words hs, hw⟩

/-! ### The chunker folds preserve the word sequence -/

theorem slsStep_eq (enc : List Char → Nat) (maxT : Nat)
    (st : List (List Char) × List Char) (w : List Char) :
    slsStep enc maxT st w =
      if maxT < count_tokens enc (appWord st.2 w) then
        if st.2 ≠ [] then (st.1 ++ [st.2], w) else (st.1 ++ [w], [])
      else (st.1, appWord st.2 w) := rfl

theorem slsStep_words (enc : List Char → Nat) (maxT : Nat)
    (st : List (List Char) × List Char) (w : List Char) :
    ((slsStep enc maxT st w).1.map words).flatten ++ words (slsStep enc maxT st w).2
      = (st.1.map words).flatten ++ words st.2 ++ words w := by
  rw [slsStep_eq]
  by_cases h1 : maxT < count_tokens enc (appWord st.2 w)
  · rw [if_pos h1]
    by_cases h2 : st.2 = []
    · rw [if_neg (by simpa using h2)]
      simp [h2, words_nil]
    · rw [if_pos h2]
      simp
  · rw [if_neg h1]
    simp [words_appWord]

theorem sls_fold_words (enc : List Char → Nat) (maxT : Nat) :
    ∀ (ws : List (List Char)) (st : List (List Char) × List Char),
      (((ws.foldl (slsStep enc maxT) st).1.map words).flatten
          ++ words (ws.foldl (slsStep enc maxT) st).2)
        = ((st.1.map words).flatten ++ words st.2 ++ ((ws.map words)).flatten) := by
  intro ws
  induction ws with
  | nil => intro st; simp
  | cons w ws ih =>
    intro st
    rw [List.foldl_cons, ih (slsStep enc maxT st w), slsStep_words]
    simp

theorem sls_words (enc : List Char → Nat) (sentence : List Char) (maxT : Nat) :
    ((split_long_sentence enc sentence maxT).map words).flatten = words sentence := by
  have h := sls_fold_words enc maxT (words sentence) ([], [])
  simp only [List.map_nil, List.flatten_nil, List.nil_append, words_nil] at h
  rw [join_map_words_words sentence] at h
  show ((if ((words sentence).foldl (slsStep enc maxT) ([], [])).2 ≠ [] then
      ((words sentence).foldl (slsStep enc maxT) ([], [])).1
        ++ [((words sentence).foldl (slsStep enc maxT) ([], [])).2]
    else ((words sentence).foldl (slsStep enc maxT) ([], [])).1).map words).flatten
    = words sentence
  by_cases hc : ((words sentence).foldl (slsStep enc maxT) ([], [])).2 = []
  · rw [if_neg (by simpa using hc)]
    rw [hc, words_nil, List.append_nil] at h
    exact h
  · rw [if_pos hc]
    rw [List.map_append, List.flatten_append]
    rw [show (([((words sentence).foldl (slsStep enc maxT) ([], [])).2]).map words).flatten
        = words ((words sentence).foldl (slsStep enc maxT) ([], [])).2 by simp]
    exact h

theorem stbtStep_flush_words (st : List (List Char) × List Char) :
    (((if st.2 ≠ [] then st.1 ++ [strip st.2] else st.1) : List (List Char)).map
        words).flatten = (st.1.map words).flatten ++ words st.2 := by
  by_cases h2 : st.2 = []
  · rw [if_neg (by simpa using h2)]
    simp [h2, words_nil]
  · rw [if_pos h2]
    simp [words_strip]

theorem stbtStep_eq (enc : List Char → Nat) (maxT : Nat)
    (st : List (List Char) × List Char) (sen : List Char) :
    stbtStep enc maxT st sen =
      if maxT < count_tokens enc sen then
        ((if st.2 ≠ [] then st.1 ++ [strip st.2] else st.1) ++
            split_long_sentence enc sen maxT, [])
      else if maxT < count_tokens enc st.2 + count_tokens enc sen then
        (if st.2 ≠ [] then st.1 ++ [strip st.2] else st.1, sen)
      else (st.1, appWord st.2 sen) := rfl

theorem stbtStep_words (enc : List Char → Nat) (maxT : Nat)
    (st : List (List Char) × List Char) (sen : List Char) :
    ((stbtStep enc maxT st sen).1.map words).flatten ++ words (stbtStep enc maxT st sen).2
      = (st.1.map words).flatten ++ words st.2 ++ words sen := by
  rw [stbtStep_eq]
  by_cases h1 : maxT < count_tokens enc sen
  · rw [if_pos h1]
    show (((if st.2 ≠ [] then st.1 ++ [strip st.2] else st.1) ++
        split_long_sentence enc sen maxT).map words).flatten ++ words [] = _
    rw [words_nil, List.append_nil, List.map_append, List.flatten_append,
      stbtStep_flush_words, sls_words]
  · rw [if_neg h1]
    by_cases h2 : maxT < count_tokens enc st.2 + count_tokens enc sen
    · rw [if_pos h2]
      show (((if st.2 ≠ [] then st.1 ++ [strip st.2] else st.1) : List (List Char)).map
          words).flatten ++ words sen = _
      rw [stbtStep_flush_words]
    · rw [if_neg h2]
      show (st.1.map words).flatten ++ words (appWord st.2 sen) = _
      rw [words_appWord]
      simp

theorem stbt_fold_words (enc : List Char → Nat) (maxT : Nat) :
    ∀ (sents : List (List Char)) (st : List (List Char) × List Char),
      (((sents.foldl (stbtStep enc maxT) st).1.map words).flatten
          ++ words (sents.foldl (stbtStep enc maxT) st).2)
        = ((st.1.map words).flatten ++ words st.2 ++ ((sents.map words)).flatten) := by
  intro sents
  induction sents with
  | nil => intro st; simp
  | cons sen sents ih =>
    intro st
    rw [List.foldl_cons, ih (stbtStep enc maxT st sen), stbtStep_words]
    simp

theorem filter_strip_words (l : List (List Char)) :
    ((l.filter (fun c => strip c ≠ [])).map words).flatten = (l.map words).flatten := by
  induction l with
  | nil => rfl
  | cons c l ih =>
    rw [List.filter_cons]
    by_cases h : strip c = []
    · have hc : words c = [] := by rw [← words_strip c, h]; rfl
      rw [if_neg (by simp [h])]
      rw [ih, List.map_cons, List.flatten_cons, hc, List.nil_append]
    · rw [if_pos (by simp [h])]
      rw [List.map_cons, List.flatten_cons, ih, List.map_cons, List.flatten_cons]

theorem stbt_words (enc : List Char → Nat) (text : List Char) (maxT : Nat) :
    ((split_text_by_tokens enc text maxT).map words).flatten = words text := by
  by_cases h : count_tokens enc text ≤ maxT
  · simp [split_text_by_tokens, h]
  · have hfold := stbt_fold_words enc maxT (split_into_sentences text) ([], [])
    simp only [List.map_nil, List.flatten_nil, List.nil_append, words_nil] at hfold
    rw [sis_words text] at hfold
    simp only [split_text_by_tokens, h, if_false]
    rw [filter_strip_words]
    by_cases hc : ((split_into_sentences text).foldl (stbtStep enc maxT) ([], [])).2 = []
    · rw [if_neg (by simpa using hc)]
      rw [hc, words_nil, List.append_nil] at hfold
      exact hfold
    · rw [if_pos hc]
      rw [List.map_append, List.flatten_append]
      rw [show (([strip ((split_into_sentences text).foldl (stbtStep enc maxT)
            ([], [])).2]).map words).flatten
          = words ((split_into_sentences text).foldl (stbtStep enc maxT) ([], [])).2 by
        simp [words_strip]]
      exact hfold

/-! ### Token-count bounds on the produced chunks -/

theorem count_tokens_nil (enc : List Char → Nat) : count_tokens enc [] = 0 := rfl

theorem slsStep_le (enc : List Char → Nat) (maxT : Nat)
    (st : List (List Char) × List Char) (w : List Char)
    (hw : count_tokens enc w ≤ maxT)
    (h1 : ∀ c ∈ st.1, count_tokens enc c ≤ maxT)
    (h2 : count_tokens enc st.2 ≤ maxT) :
    (∀ c ∈ (slsStep enc maxT st w).1, count_tokens enc c ≤ maxT) ∧
      count_tokens enc (slsStep enc maxT st w).2 ≤ maxT := by
  rw [slsStep_eq]
  by_cases hb : maxT < count_tokens enc (appWord st.2 w)
  · rw [if_pos hb]
    by_cases hc : st.2 = []
    · rw [if_neg (by simpa using hc)]
      constructor
      · intro c hm
        rcases List.mem_append.mp hm with h | h
        · exact h1 c h
        · rw [List.mem_singleton.mp h]
          exact hw
      · show count_tokens enc [] ≤ maxT
        rw [count_tokens_nil]
        exact Nat.zero_le maxT
    · rw [if_pos hc]
      constructor
      · intro c hm
        rcases List.mem_append.mp hm with h | h
        · exact h1 c h
        · rw [List.mem_singleton.mp h]
          exact h2
      · exact hw
  · rw [if_neg hb]
    exact ⟨h1, Nat.le_of_not_lt hb⟩

theorem sls_fold_le (enc : List Char → Nat) (maxT : Nat) :
    ∀ (ws : List (List Char)) (st : List (List Char) × List Char),
      (∀ w ∈ ws, count_tokens enc w ≤ maxT) →
      (∀ c ∈ st.1, count_tokens enc c ≤ maxT) →
      count_tokens enc st.2 ≤ maxT →
      (∀ c ∈ (ws.foldl (slsStep enc maxT) st).1, count_tokens enc c ≤ maxT) ∧
        count_tokens enc (ws.foldl (slsStep enc maxT) st).2 ≤ maxT := by
  intro ws
  induction ws with
  | nil => intro st _ h1 h2; exact ⟨h1, h2⟩
  | cons w ws ih =>
    intro st hws h1 h2
    rw [List.foldl_cons]
    have hstep := slsStep_le enc maxT st w (hws w (by simp)) h1 h2
    exact ih (slsStep enc maxT st w) (fun x hx => hws x (by simp [hx])) hstep.1 hstep.2

theorem sls_le (enc : List Char → Nat) (sentence : List Char) (maxT : Nat)
    (hws : ∀ w ∈ words sentence, count_tokens enc w ≤ maxT) :
    ∀ c ∈ split_long_sentence enc sentence maxT, count_tokens enc c ≤ maxT := by
  have h := sls_fold_le enc maxT (words sentence) ([], []) hws (by simp)
    (by rw [count_tokens_nil]; exact Nat.zero_le maxT)
  intro c hc
  have hc2 : c ∈ (if ((words sentence).foldl (slsStep enc maxT) ([], [])).2 ≠ [] then
      ((words sentence).foldl (slsStep enc maxT) ([], [])).1
        ++ [((words sentence).foldl (slsStep enc maxT) ([], [])).2]
    else ((words sentence).foldl (slsStep enc maxT) ([], [])).1) := hc
  by_cases hb : ((words sentence).foldl (slsStep enc maxT) ([], [])).2 = []
  · rw [if_neg (by simpa using hb)] at hc2
    exact h.1 c hc2
  · rw [if_pos hb] at hc2
    rcases List.mem_append.mp hc2 with hm | hm
    · exact h.1 c hm
    · rw [List.mem_singleton.mp hm]
      exact h.2

theorem stbtStep_le (enc : List Char → Nat) (maxT : Nat)
    (Hws : ∀ a b : List Char, words a = words b →
      count_tokens enc a = count_tokens enc b)
    (Hsub : ∀ a b : List Char, a ≠ [] → b ≠ [] →
      count_tokens enc (a ++ ' ' :: b) ≤ count_tokens enc a + count_tokens enc b)
    (st : List (List Char) × List Char) (sen : List Char)
    (hsen : sen ≠ [])
    (hsw : ∀ w ∈ words sen, count_tokens enc w ≤ maxT)
    (h1 : ∀ c ∈ st.1, count_tokens enc c ≤ maxT)
    (h2 : count_tokens enc st.2 ≤ maxT) :
    (∀ c ∈ (stbtStep enc maxT st sen).1, count_tokens enc c ≤ maxT) ∧
      count_tokens enc (stbtStep enc maxT st sen).2 ≤ maxT := by
  have hflush : ∀ c ∈ (if st.2 ≠ [] then st.1 ++ [strip st.2] else st.1),
      count_tokens enc c ≤ maxT := by
    by_cases hc : st.2 = []
    · rw [if_neg (by simpa using hc)]
      exact h1
    · rw [if_pos hc]
      intro c hm
      rcases List.mem_append.mp hm with h | h
      · exact h1 c h
      · rw [List.mem_singleton.mp h]
        rw [Hws (strip st.2) st.2 (words_strip st.2)]
        exact h2
  rw [stbtStep_eq]
  by_cases hb1 : maxT < count_tokens enc sen
  · rw [if_pos hb1]
    constructor
    · intro c hm
      rcases List.mem_append.mp hm with h | h
      · exact hflush c h
      · exact sls_le enc sen maxT hsw c h
    · show count_tokens enc [] ≤ maxT
      rw [count_tokens_nil]
      exact Nat.zero_le maxT
  · rw [if_neg hb1]
    by_cases hb2 : maxT < count_tokens enc st.2 + count_tokens enc sen
    · rw [if_pos hb2]
      exact ⟨hflush, Nat.le_of_not_lt hb1⟩
    · rw [if_neg hb2]
      refine ⟨h1, ?_⟩
      show count_tokens enc (appWord st.2 sen) ≤ maxT
      by_cases hc : st.2 = []
      · rw [show appWord st.2 sen = sen by simp [appWord, hc]]
        exact Nat.le_of_not_lt hb1
      · rw [show appWord st.2 sen = st.2 ++ ' ' :: sen by simp [appWord, hc]]
        exact le_trans (Hsub st.2 sen hc hsen) (Nat.le_of_not_lt hb2)

theorem stbt_fold_le (enc : List Char → Nat) (maxT : Nat)
    (Hws : ∀ a b : List Char, words a = words b →
      count_tokens enc a = count_tokens enc b)
    (Hsub : ∀ a b : List Char, a ≠ [] → b ≠ [] →
      count_tokens enc (a ++ ' ' :: b) ≤ count_tokens enc a + count_tokens enc b) :
    ∀ (sents : List (List Char)) (st : List (List Char) × List Char),
      (∀ s ∈ sents, s ≠ [] ∧ ∀ w ∈ words s, count_tokens enc w ≤ maxT) →
      (∀ c ∈ st.1, count_tokens enc c ≤ maxT) →
      count_tokens enc st.2 ≤ maxT →
      (∀ c ∈ (sents.foldl (stbtStep enc maxT) st).1, count_tokens enc c ≤ maxT) ∧
        count_tokens enc (sents.foldl (stbtStep enc maxT) st).2 ≤ maxT := by
  intro sents
  induction sents with
  | nil => intro st _ h1 h2; exact ⟨h1, h2⟩
  | cons sen sents ih =>
    intro st hsents h1 h2
    rw [List.foldl_cons]
    have hsen := hsents sen (by simp)
    have hstep := stbtStep_le enc maxT Hws Hsub st sen hsen.1 hsen.2 h1 h2
    exact ih (stbtStep enc maxT st sen) (fun x hx => hsents x (by simp [hx]))
      hstep.1 hstep.2

theorem stbt_le (enc : List Char → Nat) (text : List Char) (maxT : Nat)
    (Hws : ∀ a b : List Char, words a = words b →
      count_tokens enc a = count_tokens enc b)
    (Hsub : ∀ a b : List Char, a ≠ [] → b ≠ [] →
      count_tokens enc (a ++ ' ' :: b) ≤ count_tokens enc a + count_tokens enc b)
    (Hword : ∀ w ∈ words text, count_tokens enc w ≤ maxT) :
    ∀ c ∈ split_text_by_tokens enc text maxT, count_tokens enc c ≤ maxT := by
  by_cases h : count_tokens enc text ≤ maxT
  · intro c hc
    simp only [split_text_by_tokens, if_pos h, List.mem_singleton] at hc
    rw [hc]
    exact h
  · have hsents : ∀ s ∈ split_into_sentences text,
        s ≠ [] ∧ ∀ w ∈ words s, count_tokens enc w ≤ maxT := by
      intro s hs
      exact ⟨mem_split_into_sentences_ne_nil hs,
        fun w hw => Hword w (mem_words_of_mem_sentence hs hw)⟩
    have hfold := stbt_fold_le enc maxT Hws Hsub (split_into_sentences text) ([], [])
      hsents (by simp) (by rw [count_tokens_nil]; exact Nat.zero_le maxT)
    intro c hc
    simp only [split_text_by_tokens, h, if_false] at hc
    have hc2 := List.mem_of_mem_filter hc
    by_cases hb : ((split_into_sentences text).foldl (stbtStep enc maxT) ([], [])).2 = []
    · rw [if_neg (by simpa using hb)] at hc2
      exact hfold.1 c hc2
    · rw [if_pos hb] at hc2
      rcases List.mem_append.mp hc2 with hm | hm
      · exact hfold.1 c hm
      · rw [List.mem_singleton.mp hm]
        rw [Hws (strip _) _ (words_strip _)]
        exact hfold.2

theorem stbt_two_chunks (enc : List Char → Nat) (text : List Char) (maxT : Nat)
    (Hws : ∀ a b : List Char, words a = words b →
      count_tokens enc a = count_tokens enc b)
    (Hsub : ∀ a b : List Char, a ≠ [] → b ≠ [] →
      count_tokens enc (a ++ ' ' :: b) ≤ count_tokens enc a + count_tokens enc b)
    (Hbig : maxT < count_tokens enc text)
    (Hword : ∀ w ∈ words text, count_tokens enc w ≤ maxT) :
    2 ≤ (split_text_by_tokens enc text maxT).length := by
  have hle := stbt_le enc text maxT Hws Hsub Hword
  have hw := stbt_words enc text maxT
  cases hres : split_text_by_tokens enc text maxT with
  | nil =>
    rw [hres] at hw
    simp only [List.map_nil, List.flatten_nil] at hw
    have h0 : count_tokens enc text = count_tokens enc [] :=
      Hws text [] (by rw [← hw]; rfl)
    rw [count_tokens_nil] at h0
    omega
  | cons a tl =>
    cases tl with
    | nil =>
      rw [hres] at hw hle
      simp only [List.map_cons, List.map_nil, List.flatten_cons, List.flatten_nil,
        List.append_nil] at hw
      have h1 : count_tokens enc a = count_tokens enc text := Hws a text hw
      have h2 : count_tokens enc a ≤ maxT := hle a (by simp)
      simp only [List.length_singleton]
      omega
    | cons b tl2 =>
      simp only [List.length_cons]
      omega

/-! ### Facts about the concrete encodings -/

theorem charCountEnc_lossless : ∀ s : List Char, s ≠ [] → 1 ≤ charCountEnc s := by
  intro s h
  have h2 := List.length_pos.mpr h
  simpa [charCountEnc] using h2

theorem count_wordCountEnc (s : List Char) :
    count_tokens wordCountEnc s = (words s).length := by
  by_cases h : s = []
  · subst h; rfl
  · simp [count_tokens, h, wordCountEnc]

theorem wordCountEnc_ws : ∀ a b : List Char, words a = words b →
    count_tokens wordCountEnc a = count_tokens wordCountEnc b := by
  intro a b h
  rw [count_wordCountEnc, count_wordCountEnc, h]

theorem wordCountEnc_sub : ∀ a b : List Char, a ≠ [] → b ≠ [] →
    count_tokens wordCountEnc (a ++ ' ' :: b)
      ≤ count_tokens wordCountEnc a + count_tokens wordCountEnc b := by
  intro a b _ _
  rw [count_wordCountEnc, count_wordCountEnc, count_wordCountEnc,
    words_append_ws (by decide) a b]
  simp

/-! ### The single-chunk rewrite adapter -/

theorem psc_blank (text content : List Char) (h : strip content = []) :
    proofread_single_chunk (CallResult.ok (some content)) text = text := by
  by_cases hc : content = []
  · subst hc; rfl
  · simp [proofread_single_chunk, pyTruthy, hc, h]

theorem psc_ok (text content : List Char) (h : strip content ≠ []) :
    proofread_single_chunk (CallResult.ok (some content)) text = strip content := by
  have hc : content ≠ [] := by
    intro hnil
    rw [hnil] at h
    exact h rfl
  simp [proofread_single_chunk, pyTruthy, hc, h]

theorem strip_strip_ne_nil {s : List Char} (h : strip s ≠ []) : strip (strip s) ≠ [] := by
  intro h2
  have hw : words (strip s) = [] := words_nil_of_strip_nil (strip s) h2
  rw [words_strip] at hw
  exact h (strip_eq_nil_of_words_nil s hw)

/-! ### The per-chunk call loop -/

theorem proofread_chunks_length (calls : Nat → CallResult) :
    ∀ (n : Nat) (l : List (List Char)), (proofread_chunks calls n l).length = l.length := by
  intro n l
  induction l generalizing n with
  | nil => rfl
  | cons c cs ih => simp [proofread_chunks, ih]

theorem proofread_chunks_get? (calls : Nat → CallResult) :
    ∀ (l : List (List Char)) (n j : Nat),
      (proofread_chunks calls n l).get? j =
        (l.get? j).map (fun c => proofread_single_chunk (calls (n + j)) c) := by
  intro l
  induction l with
  | nil => intro n j; simp [proofread_chunks]
  | cons c cs ih =>
    intro n j
    cases j with
    | zero => simp [proofread_chunks]
    | succ j2 =>
      show (proofread_single_chunk (calls n) c :: proofread_chunks calls (n + 1) cs).get?
          (j2 + 1) = _
      rw [List.get?_cons_succ, ih (n + 1) j2,
        show n + 1 + j2 = n + (j2 + 1) by omega]
      rfl

/-! ### The final-paragraph loop -/

theorem cfp_from_get? (approved : Nat → Option Bool) (edited : Nat → Option (List Char)) :
    ∀ (origs correcteds : List (List Char)) (k i : Nat) (o c : List Char),
      origs.get? i = some o → correcteds.get? i = some c →
      (create_final_paragraphs_from approved edited k origs correcteds).get? i =
        some (if (approved (k + i)).getD false then (edited (k + i)).getD c else o) := by
  intro origs
  induction origs with
  | nil =>
    intro correcteds k i o c ho _
    simp at ho
  | cons o0 os ih =>
    intro correcteds k i o c ho hc
    cases correcteds with
    | nil => simp at hc
    | cons c0 cs =>
      cases i with
      | zero =>
        rw [List.get?_cons_zero] at ho hc
        have ho2 : o0 = o := Option.some.inj ho
        have hc2 : c0 = c := Option.some.inj hc
        rw [← ho2, ← hc2]
        rw [show create_final_paragraphs_from approved edited k (o0 :: os) (c0 :: cs)
            = (if (approved k).getD false then (edited k).getD c0 else o0)
              :: create_final_paragraphs_from approved edited (k + 1) os cs from rfl]
        rw [List.get?_cons_zero, Nat.add_zero]
      | succ j =>
        rw [List.get?_cons_succ] at ho hc
        rw [show create_final_paragraphs_from approved edited k (o0 :: os) (c0 :: cs)
            = (if (approved k).getD false then (edited k).getD c0 else o0)
              :: create_final_paragraphs_from approved edited (k + 1) os cs from rfl]
        rw [List.get?_cons_succ, ih cs (k + 1) j o c ho hc,
          show k + 1 + j = k + (j + 1) by omega]

theorem get?_map_para (f : List Char → List Char) :
    ∀ (l : List (List Char)) (i : Nat), (l.map f).get? i = (l.get? i).map f := by
  intro l
  induction l with
  | nil => intro i; rfl
  | cons x xs ih =>
    intro i
    cases i with
    | zero => rfl
    | succ j => exact ih j

/-! ### Claim theorems -/

/-- C1: for every paragraph index, the exported final paragraph equals
the edited text when present and the paragraph is approved, else the
corrected text when approved, else the original; an index absent from
the approval map (getD false) resolves to the original, and the value at
index i depends only on the row and map entries at i, so paragraphs
never influence each other. -/
theorem c1_resolve_final_precedence (approved : Nat → Option Bool)
    (edited : Nat → Option (List Char)) (origs correcteds : List (List Char))
    (i : Nat) (o c : List Char)
    (ho : origs.get? i = some o) (hc : correcteds.get? i = some c) :
    (create_final_paragraphs approved edited origs correcteds).get? i =
      some (if (approved i).getD false then (edited i).getD c else o) := by
  have h := cfp_from_get? approved edited origs correcteds 0 i o c ho hc
  simpa using h

/-- Witness for C1 at a concrete three-paragraph session: index 0 is
approved with an edit, index 1 has a revoked approval, index 2 has no
approval entry. -/
theorem c1_witness :
    (create_final_paragraphs
        (fun i => if i = 0 then some true else if i = 1 then some false else none)
        (fun i => if i = 0 then some ['E'] else none)
        [['a'], ['b'], ['c']] [['A'], ['B'], ['C']]).get? 0 = some ['E'] ∧
    (create_final_paragraphs
        (fun i => if i = 0 then some true else if i = 1 then some false else none)
        (fun i => if i = 0 then some ['E'] else none)
        [['a'], ['b'], ['c']] [['A'], ['B'], ['C']]).get? 1 = some ['b'] ∧
    (create_final_paragraphs
        (fun i => if i = 0 then some true else if i = 1 then some false else none)
        (fun i => if i = 0 then some ['E'] else none)
        [['a'], ['b'], ['c']] [['A'], ['B'], ['C']]).get? 2 = some ['c'] :=
  ⟨(c1_resolve_final_precedence _ _ _ _ 0 ['a'] ['A'] (by decide) (by decide)).trans
      (by decide),
   (c1_resolve_final_precedence _ _ _ _ 1 ['b'] ['B'] (by decide) (by decide)).trans
      (by decide),
   (c1_resolve_final_precedence _ _ _ _ 2 ['c'] ['C'] (by decide) (by decide)).trans
      (by decide)⟩

/-- C2: for every encoding, text and budget, the word sequence of the
input equals, in order, the concatenation of the word sequences of the
chunks returned by split_text_by_tokens: no word is dropped, duplicated
or reordered by chunking. -/
theorem c2_chunking_content_preservation (enc : List Char → Nat) (text : List Char)
    (maxT : Nat) :
    words text = ((split_text_by_tokens enc text maxT).map words).flatten :=
  (stbt_words enc text maxT).symm

/-- C3: the single-chunk rewrite returns the input unchanged when the
call raises, or the reply content is null or empty; when the stripped
content is non-empty it returns the content trimmed of surrounding
whitespace.  The operation is a total function: it never propagates a
failure. -/
theorem c3_rewrite_soft_fail (text : List Char) :
    proofread_single_chunk CallResult.err text = text ∧
    proofread_single_chunk (CallResult.ok none) text = text ∧
    proofread_single_chunk (CallResult.ok (some [])) text = text ∧
    ∀ content : List Char, strip content ≠ [] →
      proofread_single_chunk (CallResult.ok (some content)) text = strip content :=
  ⟨rfl, rfl, rfl, fun content h => psc_ok text content h⟩

/-- Witness for C3 at concrete inputs. -/
theorem c3_witness :
    proofread_single_chunk CallResult.err ['a'] = ['a'] ∧
    strip [' ', 'b', ' '] ≠ [] ∧
    proofread_single_chunk (CallResult.ok (some [' ', 'b', ' '])) ['a'] = ['b'] :=
  ⟨(c3_rewrite_soft_fail ['a']).1, by decide,
   ((c3_rewrite_soft_fail ['a']).2.2.2 [' ', 'b', ' '] (by decide)).trans (by decide)⟩

/-- C4 counterexample: the reprocess transition (review back to
processing followed by the processing run) does NOT discard the prior
edited text nor the prior approval entry: in session s0 the manual edit
at index 0 and the revoked approval at index 0 both survive reprocessing
with an identity rewrite oracle, contradicting the claim that all prior
edit and approval state is discarded. -/
theorem c4_reprocess_keeps_state_cex :
    (reprocessRun pfId s0).edited_paragraphs 0 = some ['x'] ∧
    (reprocessRun pfId s0).changes_approved 0 = some false := by
  constructor
  · rfl
  · rfl

/-- C4 amended: reprocessing recomputes corrected_paragraphs from the
originals and resets the approval flag to true exactly for the indices
where the new corrected text differs from the original, but it leaves
the edited texts and all other approval entries untouched; the reset
transitions back to upload do discard all per-paragraph state. -/
theorem c4_session_transitions_amended (pf : List Char → List Char) (s : SessionState) :
    (reprocessRun pf s).edited_paragraphs = s.edited_paragraphs ∧
    (reprocessRun pf s).original_paragraphs = s.original_paragraphs ∧
    (reprocessRun pf s).corrected_paragraphs
        = s.original_paragraphs.map (processParagraph pf) ∧
    (∀ i o, s.original_paragraphs.get? i = some o →
      (reprocessRun pf s).changes_approved i =
        (if o ≠ processParagraph pf o then some true else s.changes_approved i)) ∧
    (resetToUpload s).edited_paragraphs = (fun _ => none) ∧
    (resetToUpload s).changes_approved = (fun _ => none) ∧
    (resetToUpload s).original_paragraphs = [] ∧
    (resetToUpload s).corrected_paragraphs = [] ∧
    (resetToUpload s).current_step = Step.upload := by
  refine ⟨rfl, rfl, rfl, ?_, rfl, rfl, rfl, rfl, rfl⟩
  intro i o ho
  have hmap : (s.original_paragraphs.map (processParagraph pf)).get? i
      = some (processParagraph pf o) := by
    rw [get?_map_para (processParagraph pf) s.original_paragraphs i, ho]
    rfl
  show (match s.original_paragraphs.get? i,
      (s.original_paragraphs.map (processParagraph pf)).get? i with
    | some o2, some c => if o2 ≠ c then some true else s.changes_approved i
    | _, _ => s.changes_approved i) = _
  rw [ho, hmap]

/-- Witness for C4 amended at the concrete session s0 and a rewrite
oracle that changes every paragraph. -/
theorem c4_witness :
    (reprocessRun pfX s0).corrected_paragraphs = [['x', 'a'], ['x', 'b']] ∧
    (reprocessRun pfX s0).changes_approved 0 = some true ∧
    (reprocessRun pfX s0).edited_paragraphs 0 = some ['x'] ∧
    (resetToUpload s0).changes_approved 0 = none :=
  ⟨((c4_session_transitions_amended pfX s0).2.2.1).trans (by decide),
   (((c4_session_transitions_amended pfX s0).2.2.2.1) 0 ['a'] (by decide)).trans
      (by decide),
   (congrFun ((c4_session_transitions_amended pfX s0).1) 0).trans (by decide),
   (congrFun ((c4_session_transitions_amended pfX s0).2.2.2.2.2.1) 0)⟩

/-- C5 counterexample: with the character-count encoding (standing in
for the shipped lossless encoding) a text consisting of one two-token
word and trailing whitespace exceeds the budget 3, no single word
exceeds the budget, and yet split_text_by_tokens returns a single chunk,
not at least two: the whitespace that inflated the count is discarded by
sentence splitting and the remaining content fits in one chunk. -/
theorem c5_single_chunk_cex :
    3 < count_tokens charCountEnc textHi ∧
    (∀ w ∈ words textHi, count_tokens charCountEnc w ≤ 3) ∧
    ¬ 2 ≤ (split_text_by_tokens charCountEnc textHi 3).length := by decide

/-- C5 amended: for every encoding whose token counts depend only on
the word sequence and are subadditive across a single-space join, every
text whose count exceeds the budget and in which no single word exceeds
the budget is split into at least 2 chunks, each individually within
the budget. -/
theorem c5_split_bounded_amended (enc : List Char → Nat) (text : List Char) (maxT : Nat)
    (Hws : ∀ a b : List Char, words a = words b →
      count_tokens enc a = count_tokens enc b)
    (Hsub : ∀ a b : List Char, a ≠ [] → b ≠ [] →
      count_tokens enc (a ++ ' ' :: b) ≤ count_tokens enc a + count_tokens enc b)
    (Hbig : maxT < count_tokens enc text)
    (Hword : ∀ w ∈ words text, count_tokens enc w ≤ maxT) :
    2 ≤ (split_text_by_tokens enc text maxT).length ∧
    ∀ c ∈ split_text_by_tokens enc text maxT, count_tokens enc c ≤ maxT :=
  ⟨stbt_two_chunks enc text maxT Hws Hsub Hbig Hword,
   stbt_le enc text maxT Hws Hsub Hword⟩

/-- Witness for C5 amended: the word-count encoding is
whitespace-insensitive and subadditive, the text ab cd ef counts 3 over
budget 2, each word counts 1, and the split yields 2 chunks within the
budget. -/
theorem c5_witness :
    2 ≤ (split_text_by_tokens wordCountEnc textW 2).length ∧
    ∀ c ∈ split_text_by_tokens wordCountEnc textW 2,
      count_tokens wordCountEnc c ≤ 2 :=
  c5_split_bounded_amended wordCountEnc textW 2 wordCountEnc_ws wordCountEnc_sub
    (by decide) (by decide)

/-- C6 counterexample: a text within the budget is returned as the
singleton of the text itself, NOT of its trimmed form, and the empty
string yields the one-element sequence containing the empty string, NOT
the empty sequence. -/
theorem c6_untrimmed_cex :
    (count_tokens charCountEnc textPad ≤ 9 ∧
      split_text_by_tokens charCountEnc textPad 9 = [textPad] ∧
      textPad ≠ strip textPad) ∧
    (split_text_by_tokens charCountEnc [] 9 = [[]] ∧
      ([([] : List Char)] : List (List Char)) ≠ []) := by decide

/-- C6 amended: for every encoding and every text whose token count is
within the budget (the boundary included), split_text_by_tokens returns
the one-element sequence holding the input itself, untrimmed; in
particular the empty string yields the one-element sequence holding the
empty string. -/
theorem c6_short_text_identity_amended (enc : List Char → Nat) (text : List Char)
    (maxT : Nat) (h : count_tokens enc text ≤ maxT) :
    split_text_by_tokens enc text maxT = [text] := by
  simp [split_text_by_tokens, h]

/-- Witness for C6 amended at the boundary: a one-character text with
count 1 and budget 1 is not split. -/
theorem c6_witness :
    count_tokens charCountEnc ['a'] ≤ 1 ∧
    split_text_by_tokens charCountEnc ['a'] 1 = [['a']] :=
  ⟨by decide, c6_short_text_identity_amended charCountEnc ['a'] 1 (by decide)⟩

/-- C7: when a non-blank over-budget paragraph is processed as chunks
and the call for chunk k raises, the corrected-chunk list still has one
entry per chunk, its k-th entry is chunk k's original text, every other
chunk j is still processed through its own call, and the overall result
is the rejoin of that corrected-chunk list. -/
theorem c7_chunk_failure_isolation (enc : List Char → Nat) (calls : Nat → CallResult)
    (maxInput : Nat) (text : List Char) (k : Nat)
    (hblank : strip text ≠ [])
    (hbig : ¬ count_tokens enc text ≤ maxInput)
    (herr : calls k = CallResult.err) :
    (proofread_chunks calls 0 (split_text_by_tokens enc text maxInput)).length
        = (split_text_by_tokens enc text maxInput).length ∧
    (proofread_chunks calls 0 (split_text_by_tokens enc text maxInput)).get? k
        = (split_text_by_tokens enc text maxInput).get? k ∧
    (∀ j c, (split_text_by_tokens enc text maxInput).get? j = some c →
      (proofread_chunks calls 0 (split_text_by_tokens enc text maxInput)).get? j
        = some (proofread_single_chunk (calls j) c)) ∧
    proofread_text enc calls maxInput text
      = rejoin_chunks (proofread_chunks calls 0 (split_text_by_tokens enc text maxInput)) := by
  refine ⟨proofread_chunks_length calls 0 _, ?_, ?_, ?_⟩
  · rw [proofread_chunks_get? calls _ 0 k, show (0 : Nat) + k = k by omega, herr]
    cases (split_text_by_tokens enc text maxInput).get? k with
    | none => rfl
    | some c => rfl
  · intro j c hc
    rw [proofread_chunks_get? calls _ 0 j, hc, show (0 : Nat) + j = j by omega]
    rfl
  · simp only [proofread_text, hblank, hbig, if_false]

/-- Witness for C7: with the character-count encoding, budget 3, text
ab cd ef (chunks ab, cd, ef) and a call sequence whose second call
raises, chunk 1 keeps its original text and the result is the rejoin of
the substituted list. -/
theorem c7_witness :
    (proofread_chunks callsW 0 (split_text_by_tokens charCountEnc textW 3)).get? 1
        = (split_text_by_tokens charCountEnc textW 3).get? 1 ∧
    proofread_text charCountEnc callsW 3 textW
      = rejoin_chunks (proofread_chunks callsW 0 (split_text_by_tokens charCountEnc textW 3)) :=
  ⟨(c7_chunk_failure_isolation charCountEnc callsW 3 textW 1 (by decide) (by decide)
      (by decide)).2.1,
   (c7_chunk_failure_isolation charCountEnc callsW 3 textW 1 (by decide) (by decide)
      (by decide)).2.2.2⟩

/-- C8: for every non-empty chunk list, the rejoin seeds the output
with the first chunk and appends each later chunk preceded by a
paragraph break when the chunk starts with a list-marker pattern, and
by a single space otherwise. -/
theorem c8_rejoin_policy (first : List Char) (rest : List (List Char)) :
    rejoin_chunks (first :: rest) =
      rest.foldl (fun result chunk =>
        if isListMarker chunk then result ++ '\n' :: '\n' :: chunk
        else result ++ ' ' :: chunk) first := by
  show rest.foldl rejoinStep first = _
  have h : rejoinStep = fun result chunk =>
      if isListMarker chunk then result ++ '\n' :: '\n' :: chunk
      else result ++ ' ' :: chunk := by
    funext result chunk
    by_cases h1 : isListMarker chunk
    · simp [rejoinStep, h1]
    · by_cases h2 : endsWithSentencePunct result <;> simp [rejoinStep, h1, h2]
  rw [h]

/-- C9 counterexample: count_tokens special-cases only the empty
string; a whitespace-only non-empty string is passed to the encoding,
which (for the lossless character-count stand-in, as for the shipped
cl100k_base) yields a positive count, so blank input does NOT count 0. -/
theorem c9_blank_positive_cex :
    count_tokens charCountEnc [' '] = 1 ∧ count_tokens charCountEnc [' '] ≠ 0 := by
  decide

/-- C9 amended: count_tokens is a function of its input (deterministic),
its result is a natural number hence at least 0, it returns 0 on the
empty string, and for any lossless encoding (such as the shipped one)
every non-empty input, including whitespace-only input, yields a count
of at least 1. -/
theorem c9_count_tokens_amended (enc : List Char → Nat)
    (hlossless : ∀ s : List Char, s ≠ [] → 1 ≤ enc s) :
    count_tokens enc [] = 0 ∧
    (∀ a b : List Char, a = b → count_tokens enc a = count_tokens enc b) ∧
    (∀ s : List Char, 0 ≤ count_tokens enc s) ∧
    (∀ s : List Char, s ≠ [] → 1 ≤ count_tokens enc s) := by
  refine ⟨rfl, fun a b h => by rw [h], fun s => Nat.zero_le _, fun s hs => ?_⟩
  show 1 ≤ (if s = [] then 0 else enc s)
  rw [if_neg hs]
  exact hlossless s hs

/-- Witness for C9 amended at the character-count encoding. -/
theorem c9_witness :
    count_tokens charCountEnc [] = 0 ∧ 1 ≤ count_tokens charCountEnc [' ', '\t'] :=
  ⟨(c9_count_tokens_amended charCountEnc charCountEnc_lossless).1,
   (c9_count_tokens_amended charCountEnc charCountEnc_lossless).2.2.2 [' ', '\t']
      (by decide)⟩

/-- C10: the single-chunk rewrite falls back to the input whenever the
reply content strips to empty (so whitespace-only replies fall back,
not only empty or null ones), returns the stripped content whenever it
is non-blank, and therefore the rewrite of a non-blank input is never
blank, whatever the call outcome. -/
theorem c10_blank_reply_fallback (text content : List Char) :
    (strip content = [] →
      proofread_single_chunk (CallResult.ok (some content)) text = text) ∧
    (strip content ≠ [] →
      proofread_single_chunk (CallResult.ok (some content)) text = strip content) ∧
    (strip text ≠ [] → ∀ r : CallResult, strip (proofread_single_chunk r text) ≠ []) := by
  refine ⟨fun h => psc_blank text content h, fun h => psc_ok text content h,
    fun ht r => ?_⟩
  cases r with
  | err => exact ht
  | ok content2 =>
    cases content2 with
    | none => exact ht
    | some c2 =>
      by_cases h2 : strip c2 = []
      · rw [psc_blank text c2 h2]
        exact ht
      · rw [psc_ok text c2 h2]
        exact strip_strip_ne_nil h2

/-- Witness for C10: a whitespace-only reply falls back to the input,
and a failed call on non-blank input leaves a non-blank result. -/
theorem c10_witness :
    (strip [' ', '\t'] = [] ∧
      proofread_single_chunk (CallResult.ok (some [' ', '\t'])) ['a'] = ['a']) ∧
    strip (proofread_single_chunk CallResult.err ['a']) ≠ [] :=
  ⟨⟨by decide, (c10_blank_reply_fallback ['a'] [' ', '\t']).1 (by decide)⟩,
   (c10_blank_reply_fallback ['a'] [' ', '\t']).2.2 (by decide) CallResult.err⟩

end DocProofreader
